import Mathlib

/-
  Verification development for the madios ADIOS grammar-induction engine.

  The definitions below are a shallow embedding of the C++ sources:
    - src/src/RDSGraph.cpp / src/include/madios/RDSGraph.h
    - src/src/SignificantPattern.cpp, src/src/EquivalenceClass.cpp
    - src/src/SearchPath.cpp, src/include/madios/ParseTree.h
    - src/src/RDSNode.cpp, src/include/madios/ADIOSUtils.h

  Machine integers (unsigned int, size_t) are modelled as Nat; C++ doubles
  that carry exact count ratios are modelled as rationals; C++ exceptions
  (std::out_of_range etc.) are modelled with Option.  std::vector is a
  Lean List; vector::set / operator[] out of range (undefined behaviour in
  the original) is modelled by the no-op / none conventions of List.set
  and getElem?.
-/

set_option maxRecDepth 10000

/-- Embeds LexiconTypes::LexiconEnum together with the polymorphic
LexiconUnit payload (ADIOSUtils.h, LexiconUnit.h): Start, End, a
BasicSymbol terminal, a SignificantPattern (sequence of node ids) or an
EquivalenceClass (ordered duplicate-free set of node ids). -/
inductive Lexicon where
  | start : Lexicon
  | stop : Lexicon
  | sym : String → Lexicon
  | sp : List Nat → Lexicon
  | ec : List Nat → Lexicon
deriving DecidableEq, Repr

/-- Embeds class RDSNode (RDSNode.h): one owned lexicon payload plus the
forward `connections` (path index, offset) and back-edge `parents`
(parent node id, position) lists. -/
structure RDSNode where
  lex : Lexicon
  connections : List (Nat × Nat)
  parents : List (Nat × Nat)
deriving DecidableEq, Repr

/-- Embeds ParseNode<unsigned int> (ParseTree.h). -/
structure PNode where
  val : Nat
  parent : Nat × Nat
  children : List Nat
deriving DecidableEq, Repr

/-- Embeds ParseTree<unsigned int>: the node arena, root at index 0. -/
abbrev PTree := List PNode

/-- Embeds class RDSGraph's data members (RDSGraph.h):
nodes, paths, trees, counts, corpusSize, quiet, significant_patterns and
rewiring_ops. -/
structure RDSGraph where
  nodes : List RDSNode
  paths : List (List Nat)
  trees : List PTree
  counts : List (List Nat)
  corpusSize : Nat
  quiet : Bool
  significant_patterns : List (List Nat)
  rewiring_ops : Nat
deriving DecidableEq, Repr

/-- First index of `u` in a list, or none.  Embeds both the std::find
interning lookup of RDSGraph::buildInitialGraph and
SignificantPattern::find (SignificantPattern.cpp, which scans positions
0,1,2,... and returns the first hit, throwing when absent). -/
def findFirstIndex : List Nat → Nat → Option Nat
  | [], _ => none
  | x :: xs, u => if x = u then some 0 else (findFirstIndex xs u).map (· + 1)

/-- EquivalenceClass::has (EquivalenceClass.cpp): membership test. -/
def ecHas (ec : List Nat) (u : Nat) : Bool :=
  ec.contains u

/-- EquivalenceClass::add (EquivalenceClass.cpp): append if not present. -/
def ecAdd (ec : List Nat) (u : Nat) : List Nat :=
  if ecHas ec u then ec else ec ++ [u]

/-- EquivalenceClass::computeOverlapEC (EquivalenceClass.cpp): iterate the
other class and keep the members this class has. -/
def computeOverlapEC (a b : List Nat) : List Nat :=
  b.foldl (fun acc x => if ecHas a x then ecAdd acc x else acc) []

/-- SearchPath::rewire (SearchPath.cpp): erase the inclusive range
[start, finish] and insert the single node at position start. -/
def pathRewire (path : List Nat) (start finish node : Nat) : List Nat :=
  let erased := path.take start ++ path.drop (finish + 1)
  erased.take start ++ [node] ++ erased.drop start

/-- ParseTree constructor from a value list (ParseTree.h): root at index 0
whose children are 1..n, leaf i+1 carrying values[i] with parent (0, i). -/
def initialTree (path : List Nat) : PTree :=
  ⟨0, (0, 0), (List.range path.length).map (· + 1)⟩ ::
    (List.range path.length).map (fun i => ⟨path.getD i 0, (0, i), []⟩)

/-- ParseTree::rewire (ParseTree.h): push a new node, replace the root
children range [start, finish] by its index, give it the subsumed
children, and repoint their parent links. -/
def treeRewire (t : PTree) (start finish newVal : Nat) : PTree :=
  let newIdx := t.length
  let root := t.headD ⟨0, (0, 0), []⟩
  let subsumed := (root.children.drop start).take (finish + 1 - start)
  let rootChildren := root.children.take start ++ [newIdx] ++ root.children.drop (finish + 1)
  let t1 := (t.set 0 { root with children := rootChildren }) ++ [⟨newVal, (0, 0), subsumed⟩]
  (List.range subsumed.length).foldl
    (fun tr i =>
      match tr[subsumed.getD i 0]? with
      | some pn => tr.set (subsumed.getD i 0) { pn with parent := (newIdx, i) }
      | none => tr)
    t1

/-- Apply a function to the node stored at index i (no-op when out of
bounds, where the C++ vector indexing would be undefined). -/
def modifyNode (nodes : List RDSNode) (i : Nat) (f : RDSNode → RDSNode) : List RDSNode :=
  match nodes[i]? with
  | some nd => nodes.set i (f nd)
  | none => nodes

/-- First phase of RDSGraph::updateAllConnections: clear every node's
connections and parents lists. -/
def clearIndexLists (nodes : List RDSNode) : List RDSNode :=
  nodes.map fun nd => { nd with connections := [], parents := [] }

/-- Second phase of RDSGraph::updateAllConnections, inner loop: push
(i, j) onto nodes[paths[i][j]].connections for one path. -/
def addConnectionsForPath (nodes : List RDSNode) (i : Nat) (path : List Nat) : List RDSNode :=
  (List.range path.length).foldl
    (fun ns j =>
      modifyNode ns (path.getD j 0) (fun nd => { nd with connections := nd.connections ++ [(i, j)] }))
    nodes

/-- Second phase of RDSGraph::updateAllConnections, outer loop over all
paths. -/
def addAllConnections (nodes : List RDSNode) (paths : List (List Nat)) : List RDSNode :=
  (List.range paths.length).foldl (fun ns i => addConnectionsForPath ns i (paths.getD i [])) nodes

/-- Push one parent entry onto a child node's parents list. -/
def pushParent (nodes : List RDSNode) (child : Nat) (p : Nat × Nat) : List RDSNode :=
  modifyNode nodes child (fun nd => { nd with parents := nd.parents ++ [p] })

/-- Third phase of RDSGraph::updateAllConnections: for every
SignificantPattern node i with children cs, push
(i, find cs (cs[j])) onto nodes[cs[j]].parents (note: find returns the
FIRST index of the child id); for every EquivalenceClass node i, push
(i, 0) onto each member's parents. -/
def spParentStep (i : Nat) (cs : List Nat) (ms : List RDSNode) (c : Nat) : List RDSNode :=
  match findFirstIndex cs c with
  | some k => pushParent ms c (i, k)
  | none => ms

/-- The body of the third-phase loop at node index i. -/
def addParentsForNode (ns : List RDSNode) (i : Nat) : List RDSNode :=
  match ns[i]? with
  | some nd =>
    match nd.lex with
    | Lexicon.sp cs => cs.foldl (spParentStep i cs) ns
    | Lexicon.ec mem => mem.foldl (fun ms m => pushParent ms m (i, 0)) ns
    | _ => ns
  | none => ns

def addAllParents (nodes : List RDSNode) : List RDSNode :=
  (List.range nodes.length).foldl addParentsForNode nodes

/-- RDSGraph::updateAllConnections (RDSGraph.cpp lines 957-988): clear all
index lists, rebuild connections and corpusSize from the paths, then
rebuild all parent links. -/
def updateAllConnections (g : RDSGraph) : RDSGraph :=
  let cleared := clearIndexLists g.nodes
  let withConns := addAllConnections cleared g.paths
  { g with nodes := addAllParents withConns, corpusSize := (g.paths.map List.length).sum }

/-- One interning step of RDSGraph::buildInitialGraph: look the token up
in the lexicon (which is padded with two empty strings for Start/End); on
a miss append a fresh Terminal node. -/
def internTokenStep : (List String × List RDSNode) × List Nat → String →
    (List String × List RDSNode) × List Nat
  | ((lexicon, nodes), path), tok =>
    match lexicon.indexOf? tok with
    | some k => ((lexicon, nodes), path ++ [k])
    | none => ((lexicon ++ [tok], nodes ++ [⟨Lexicon.sym tok, [], []⟩]), path ++ [lexicon.length])

/-- RDSGraph::buildInitialGraph (RDSGraph.cpp lines 580-622): install
Start and End nodes, intern every token, wrap each sequence into the path
[0, ..., 1], rebuild the indices and create one initial parse tree per
path. -/
def buildInitialGraph (sequences : List (List String)) : RDSGraph :=
  let init : List String × List RDSNode :=
    (["", ""], [⟨Lexicon.start, [], []⟩, ⟨Lexicon.stop, [], []⟩])
  let built := sequences.foldl
    (fun (st : (List String × List RDSNode) × List (List Nat)) seq =>
      let r := seq.foldl internTokenStep (st.1, [0])
      (r.1, st.2 ++ [r.2 ++ [1]]))
    (init, [])
  let g0 : RDSGraph :=
    { nodes := built.1.2, paths := built.2, trees := [], counts := [],
      corpusSize := 0, quiet := false, significant_patterns := [], rewiring_ops := 0 }
  let g1 := updateAllConnections g0
  { g1 with trees := g1.paths.map initialTree }

/-- RDSGraph::rewire(connections, const EquivalenceClass&) followed by
rewire(connections, unsigned int) (RDSGraph.cpp lines 845-861): push a
new EC node, write its index into every listed path slot, then rebuild
the indices.  (In the code base this overload is only ever invoked with
an empty connection list.) -/
def rewireEC (g : RDSGraph) (conns : List (Nat × Nat)) (ms : List Nat) : RDSGraph :=
  let g1 := { g with nodes := g.nodes ++ [(⟨Lexicon.ec ms, [], []⟩ : RDSNode)] }
  let ecIdx := g1.nodes.length - 1
  let newPaths := conns.foldl
    (fun (ps : List (List Nat)) c =>
      match ps[c.1]? with
      | some p => ps.set c.1 (p.set c.2 ecIdx)
      | none => ps)
    g1.paths
  updateAllConnections { g1 with paths := newPaths }

/-- The insertion scan of RDSGraph::rewire(connections, sp)
(RDSGraph.cpp lines 875-902): walk the accumulated list; once inside the
group of connections with the same path index (found_group), insert
before the first entry with a larger offset or at the end of the group;
otherwise append. -/
def insertConnection (c : Nat × Nat) : List (Nat × Nat) → Bool → List (Nat × Nat)
  | [], _ => [c]
  | x :: xs, found_group =>
    if c.1 = x.1 then
      if c.2 < x.2 then c :: x :: xs
      else x :: insertConnection c xs true
    else if found_group then c :: x :: xs
    else x :: insertConnection c xs found_group

/-- sorted_connections of RDSGraph::rewire(connections, sp): insert each
incoming connection in turn, starting from the empty list. -/
def sortConnections (conns : List (Nat × Nat)) : List (Nat × Nat) :=
  conns.foldl (fun acc c => insertConnection c acc false) []

/-- The overlap-dropping scan of RDSGraph::rewire(connections, sp)
(RDSGraph.cpp lines 909-923): a connection on the same path whose offset
is at most (last accepted offset) + k - 1 is discarded; any other
connection is accepted and becomes the new "last". -/
def dropOverlapsGo (k : Nat) : (Nat × Nat) → List (Nat × Nat) → List (Nat × Nat)
  | _, [] => []
  | last, c :: cs =>
    if c.1 = last.1 ∧ c.2 ≤ last.2 + k - 1 then dropOverlapsGo k last cs
    else c :: dropOverlapsGo k c cs

/-- The overlap-dropping pass over a whole list: the front is always
accepted, the rest is filtered against the last accepted connection. -/
def dropOverlapsAll (k : Nat) : List (Nat × Nat) → List (Nat × Nat)
  | [] => []
  | c :: cs => c :: dropOverlapsGo k c cs

/-- valid_connections of RDSGraph::rewire(connections, sp): the front of
the sorted list is always accepted, the rest is filtered by the overlap
rule. -/
def validConnections (k : Nat) (conns : List (Nat × Nat)) : List (Nat × Nat) :=
  dropOverlapsAll k (sortConnections conns)

/-- One iteration of the reverse rewiring loop of
RDSGraph::rewire(connections, sp) (RDSGraph.cpp lines 927-949): skip when
the path index or the pattern range is out of bounds; otherwise first
rewire every parse-tree child whose id differs from the pattern element
(the equivalence-class slots), then subsume the range under the new
pattern node in both the tree and the path. -/
def applyOneRewire (pattern : List Nat) (newIdx : Nat)
    (st : List (List Nat) × List PTree) (c : Nat × Nat) : List (List Nat) × List PTree :=
  let k := pattern.length
  if c.1 < st.1.length then
    let path := st.1.getD c.1 []
    if c.2 + k - 1 < path.length then
      let segment := (path.drop c.2).take k
      let tree := st.2.getD c.1 []
      let tree1 := (List.range segment.length).foldl
        (fun tr j =>
          if segment.getD j 0 ≠ pattern.getD j 0 then
            treeRewire tr (c.2 + j) (c.2 + j) (pattern.getD j 0)
          else tr)
        tree
      let tree2 := treeRewire tree1 c.2 (c.2 + k - 1) newIdx
      (st.1.set c.1 (pathRewire path c.2 (c.2 + k - 1) newIdx), st.2.set c.1 tree2)
    else st
  else st

/-- RDSGraph::rewire(connections, const SignificantPattern&)
(RDSGraph.cpp lines 863-952): push the new pattern node; on an empty
connection list warn and return at once (without reindexing); otherwise
sort, drop overlapping occurrences, apply the surviving rewrites in
reverse order (descending loop over valid_connections) and rebuild the
indices. -/
def rewireSP (g : RDSGraph) (conns : List (Nat × Nat)) (cs : List Nat) : RDSGraph :=
  let g1 := { g with nodes := g.nodes ++ [⟨Lexicon.sp cs, [], []⟩] }
  if conns.isEmpty then g1
  else
    let vc := validConnections cs.length conns
    let st := vc.reverse.foldl (applyOneRewire cs (g1.nodes.length - 1)) (g1.paths, g1.trees)
    updateAllConnections { g1 with paths := st.1, trees := st.2 }

/-- Count-vector initialisation of RDSGraph::estimateProbabilities:
one counter per EC member, a single counter for every other node. -/
def initCounts (nodes : List RDSNode) : List (List Nat) :=
  nodes.map fun nd =>
    match nd.lex with
    | Lexicon.ec ms => List.replicate ms.length 0
    | _ => [0]

/-- counts[n][k]++ with the bounds guards of
RDSGraph::estimateProbabilities. -/
def bumpCount (counts : List (List Nat)) (n k : Nat) : List (List Nat) :=
  match counts[n]? with
  | some row =>
    match row[k]? with
    | some v => counts.set n (row.set k (v + 1))
    | none => counts
  | none => counts

/-- Processing of one parse-tree node (index j ≥ 1) in
RDSGraph::estimateProbabilities (RDSGraph.cpp lines 1170-1193): skip
out-of-bounds values; for an EC node find the single child and increment
the counter of every member equal to the child's value; for any other
node increment its single counter. -/
def countTreeNode (nodes : List RDSNode) (t : PTree) (counts : List (List Nat)) (j : Nat) :
    List (List Nat) :=
  match t[j]? with
  | none => counts
  | some tn =>
    if tn.val < nodes.length then
      match nodes[tn.val]? with
      | none => counts
      | some nd =>
        match nd.lex with
        | Lexicon.ec ms =>
          match tn.children with
          | [] => counts
          | fc :: _ =>
            match t[fc]? with
            | none => counts
            | some cn =>
              (List.range ms.length).foldl
                (fun cts k => if ms.getD k 0 = cn.val then bumpCount cts tn.val k else cts)
                counts
        | _ => bumpCount counts tn.val 0
    else counts

/-- RDSGraph::estimateProbabilities (RDSGraph.cpp lines 1159-1194):
reset the counts, then walk every parse tree's nodes from index 1. -/
def estimateProbabilities (g : RDSGraph) : RDSGraph :=
  let counts := g.trees.foldl
    (fun cts t => (List.range (t.length - 1)).foldl (fun c j => countTreeNode g.nodes t c (j + 1)) cts)
    (initCounts g.nodes)
  { g with counts := counts }

/-- Left-hand sides of emitted PCFG rules: E{n}, P{n} or S.  The emitted
names "E<id>" / "P<id>" / "S" are injective on these constructors, so the
grouping of rules by textual LHS coincides with this type. -/
inductive PCFGLhs where
  | E : Nat → PCFGLhs
  | P : Nat → PCFGLhs
  | S : PCFGLhs
deriving DecidableEq, Repr

/-- One emitted PCFG rule; the probability (a printed double in the
original) is carried exactly as a rational. -/
structure PCFGRule where
  lhs : PCFGLhs
  rhs : List String
  prob : ℚ
deriving DecidableEq, Repr

/-- RDSGraph::printNodeName (RDSGraph.cpp lines 1326-1348). -/
def printNodeName (g : RDSGraph) (n : Nat) : String :=
  match g.nodes[n]? with
  | none => "[INVALID_NODE:" ++ toString n ++ "]"
  | some nd =>
    match nd.lex with
    | Lexicon.ec _ => "E" ++ toString n
    | Lexicon.sp _ => "P" ++ toString n
    | Lexicon.sym s => s
    | Lexicon.start => "*"
    | Lexicon.stop => "#"

/-- The EC total of RDSGraph::convert2PCFG: sum of counts[n][j] over the
members of the class. -/
def ecCountTotal (g : RDSGraph) (n : Nat) (ms : List Nat) : Nat :=
  ((List.range ms.length).map (fun j => (g.counts.getD n []).getD j 0)).sum

/-- The rules RDSGraph::convert2PCFG emits for node n (RDSGraph.cpp lines
175-200): an EC node yields one rule per member with probability
count/total, an SP node yields a single rule with probability
count/count; in both cases a zero total is replaced by 1 ("avoid division
by zero"). -/
def nodeRulesFor (g : RDSGraph) (n : Nat) : List PCFGRule :=
  match g.nodes[n]? with
  | none => []
  | some nd =>
    match nd.lex with
    | Lexicon.ec ms =>
      let total0 : ℚ := (ecCountTotal g n ms : ℚ)
      let total : ℚ := if total0 = 0 then 1 else total0
      (List.range ms.length).map
        (fun j =>
          ⟨PCFGLhs.E n, [printNodeName g (ms.getD j 0)],
            (((g.counts.getD n []).getD j 0 : Nat) : ℚ) / total⟩)
    | Lexicon.sp cs =>
      let c0 : ℚ := (((g.counts.getD n []).getD 0 0 : Nat) : ℚ)
      let total : ℚ := if c0 = 0 then 1 else c0
      [⟨PCFGLhs.P n, cs.map (printNodeName g), c0 / total⟩]
    | _ => []

/-- The S-rules of RDSGraph::convert2PCFG (RDSGraph.cpp lines 201-221):
group the interiors of all paths (dropping leading Start and trailing
End) and emit one rule per distinct interior with probability
count / number-of-paths. -/
def sRulesFor (g : RDSGraph) : List PCFGRule :=
  let rhss := g.paths.map (fun p => ((p.drop 1).dropLast).map (printNodeName g))
  rhss.dedup.map
    (fun r =>
      ⟨PCFGLhs.S, r, if rhss.length > 0 then ((rhss.count r : Nat) : ℚ) / (rhss.length : ℚ) else 1⟩)

/-- RDSGraph::convert2PCFG (RDSGraph.cpp lines 169-224): the EC and SP
rules in node order followed by the S rules. -/
def convert2PCFG (g : RDSGraph) : List PCFGRule :=
  ((List.range g.nodes.length).map (nodeRulesFor g)).flatten ++ sRulesFor g

/-- All probabilities the grammar emits for one left-hand side. -/
def lhsProbs (rules : List PCFGRule) (l : PCFGLhs) : List ℚ :=
  (rules.filter (fun r => r.lhs = l)).map PCFGRule.prob

mutual

/-- RDSGraph::generate(unsigned int) (RDSGraph.cpp lines 229-266):
an out-of-bounds node id returns an empty sequence after logging; an EC
node draws u = uniform_rand() in [0,1), computes
randomUnit = floor(size * u) and calls ec->at(randomUnit), which throws
std::out_of_range (modelled as none) when the class is empty; an SP node
concatenates the recursive expansions of its children; the trailing
assert(sequence.size() > 0) aborts on an empty result.  The rng is the
stream of uniform_rand() values, indexed by the draw counter t; fuel
bounds the recursion depth (the C++ recursion is unbounded). -/
def generateNode (nodes : List RDSNode) (rng : Nat → ℚ) :
    Nat → Nat → Nat → Option (List String × Nat)
  | 0, _, _ => none
  | fuel + 1, node, t =>
    match nodes[node]? with
    | none => some ([], t)
    | some nd =>
      match nd.lex with
      | Lexicon.start => some (["*"], t)
      | Lexicon.stop => some (["#"], t)
      | Lexicon.sym s => some ([s], t)
      | Lexicon.ec ms =>
        let randomUnit := (⌊(ms.length : ℚ) * rng t⌋).toNat
        match ms[randomUnit]? with
        | none => none
        | some m =>
          match generateNode nodes rng fuel m (t + 1) with
          | none => none
          | some r => if r.1.isEmpty then none else some r
      | Lexicon.sp cs =>
        match generateChildren nodes rng fuel cs t with
        | none => none
        | some r => if r.1.isEmpty then none else some r
termination_by fuel _ _ => (fuel, 0)

/-- The child loop of the SP case of RDSGraph::generate(unsigned int):
expand each child in order, concatenating the segments and threading the
draw counter. -/
def generateChildren (nodes : List RDSNode) (rng : Nat → ℚ) :
    Nat → List Nat → Nat → Option (List String × Nat)
  | _, [], t => some ([], t)
  | fuel, c :: cs, t =>
    match generateNode nodes rng fuel c t with
    | none => none
    | some r =>
      match generateChildren nodes rng fuel cs r.2 with
      | none => none
      | some r2 => some (r.1 ++ r2.1, r2.2)
termination_by fuel cs _ => (fuel, cs.length + 1)

end

/-- RDSGraph::generate(const SearchPath&) (RDSGraph.cpp lines 269-305):
walk the path; skip out-of-bounds ids; an EC element is expanded only
when ec->size() > 0 (the empty class is silently skipped, no draw is
consumed); SP elements expand their children through
generate(unsigned int). -/
def generatePath (nodes : List RDSNode) (rng : Nat → ℚ) (fuel : Nat)
    (path : List Nat) (t0 : Nat) : Option (List String × Nat) :=
  path.foldl
    (fun acc idx =>
      match acc with
      | none => none
      | some (seq, t) =>
        match nodes[idx]? with
        | none => some (seq, t)
        | some nd =>
          match nd.lex with
          | Lexicon.start => some (seq ++ ["*"], t)
          | Lexicon.stop => some (seq ++ ["#"], t)
          | Lexicon.sym s => some (seq ++ [s], t)
          | Lexicon.ec ms =>
            if ms.length > 0 then
              let randomUnit := (⌊(ms.length : ℚ) * rng t⌋).toNat
              match ms[randomUnit]? with
              | none => none
              | some m =>
                match generateNode nodes rng fuel m (t + 1) with
                | none => none
                | some r => some (seq ++ r.1, r.2)
            else some (seq, t)
          | Lexicon.sp cs =>
            match generateChildren nodes rng fuel cs t with
            | none => none
            | some r => some (seq ++ r.1, r.2))
    (some ([], t0))

/-- The parameter record of ADIOSParams (ADIOSUtils.h), with the C++
doubles carried as rationals. -/
structure ADIOSParamsQ where
  eta : ℚ
  alpha : ℚ
  contextSize : Nat
  overlapThreshold : ℚ
deriving DecidableEq

/-- ADIOSParams::ADIOSParams (RDSGraph.cpp lines 63-72): the constructor
asserts 0 ≤ eta ≤ 1 and 0 ≤ alpha ≤ 1 (an assert failure is modelled as
none); it performs no check whatsoever on contextSize or
overlapThreshold.  This is the only parameter validation in the program:
run_cli (main.cpp) passes eta, alpha, context_size and coverage straight
to this constructor. -/
def mkADIOSParams (eta alpha : ℚ) (contextSize : Nat) (overlapThreshold : ℚ) :
    Option ADIOSParamsQ :=
  if 0 ≤ eta ∧ eta ≤ 1 then
    if 0 ≤ alpha ∧ alpha ≤ 1 then some ⟨eta, alpha, contextSize, overlapThreshold⟩
    else none
  else none

/-- The pattern-acceptance test of the distillation stage of
RDSGraph::generalise (RDSGraph.cpp lines 455-464): when the generalised
slot holds a brand-new EC (placeholder id ≥ nodes.size()), the found
pattern (first, second) is skipped exactly when
slot < first or slot > second; otherwise it is accepted. -/
def acceptGeneralPattern (general_path : List Nat) (slot numNodes : Nat)
    (pat : Nat × Nat) : Bool :=
  if general_path.getD slot 0 ≥ numNodes then
    if slot < pat.1 ∨ slot > pat.2 then false else true
  else true

/-- The overlap ratio of RDSGraph::bootstrap (RDSGraph.cpp line 708):
encountered_ecs[i].computeOverlapEC(*ec).size() divided by
static_cast<double>(ec->size()) — a genuine real-valued fraction. -/
def bootstrapOverlapFrac (enc ec : List Nat) : ℚ :=
  ((computeOverlapEC enc ec).length : ℚ) / (ec.length : ℚ)

/-- The overlap ratio of the rewiring stage of RDSGraph::generalise
(RDSGraph.cpp line 530): overlap_ec.size() / best_exisiting_ec->size()
divides the two unsigned sizes BEFORE the implicit conversion to double,
i.e. it is C++ integer division. -/
def commitOverlapFrac (overlapSize ecSize : Nat) : ℚ :=
  ((overlapSize / ecSize : Nat) : ℚ)

/-- The commit-stage decision of RDSGraph::generalise (lines 529-537): a
restricted overlap class is installed as a new node exactly when the
(integer-divided) overlap ratio is < 1.0. -/
def installNewOverlapEC (enc ec : List Nat) : Bool :=
  decide (commitOverlapFrac (computeOverlapEC enc ec).length ec.length < 1)

/-- One pass of the outer loop of RDSGraph::distill(const ADIOSParams&)
(RDSGraph.cpp lines 107-132), parametric in the per-path workers:
iterate the paths in order (reading each path from the current state, as
the C++ range-for over the mutating vector does) and dispatch on
(contextSize < 3) || (path.size() < contextSize) — plain distill on the
left, generalise on the right; the pass reports whether any path found a
pattern. -/
def distillPass {σ : Type} (pathsOf : σ → List (List Nat))
    (pd gd : σ → List Nat → σ × Bool) (cs : Nat) (s : σ) : σ × Bool :=
  (List.range (pathsOf s).length).foldl
    (fun acc i =>
      let path := (pathsOf acc.1).getD i []
      let r := if cs < 3 ∨ path.length < cs then pd acc.1 path else gd acc.1 path
      (r.1, r.2 || acc.2))
    (s, false)

/-- The outer fixed-point loop of RDSGraph::distill(const ADIOSParams&):
repeat passes while a pattern was found; on the first pass that finds no
pattern, stop and run estimateProbabilities.  The C++ while(true) loop is
given explicit fuel; none models non-termination within the allotted
fuel. -/
def distillDriver {σ : Type} (pathsOf : σ → List (List Nat))
    (pd gd : σ → List Nat → σ × Bool) (est : σ → σ) (cs : Nat) :
    Nat → σ → Option σ
  | 0, _ => none
  | fuel + 1, s =>
    let r := distillPass pathsOf pd gd cs s
    if r.2 then distillDriver pathsOf pd gd est cs fuel r.1
    else some (est r.1)

/-- The build-then-distill-then-emit pipeline of main.cpp / RDSGraph:
RDSGraph(sequences) seeds the global RNG with `seed` (srand in the
constructor) and builds the initial graph; distill runs to convergence;
convert2PCFG emits the grammar.  None of these stages calls rand() or
uniform_rand() (the only draws in the program are in the generate
overloads), so the RNG state is returned unchanged next to the emitted
grammar. -/
def emitPipeline (pd gd : RDSGraph → List Nat → RDSGraph × Bool) (fuel : Nat)
    (corpus : List (List String)) (params : ADIOSParamsQ) (seed : Nat) :
    Option (List PCFGRule) × Nat :=
  ((distillDriver (fun g => g.paths) pd gd estimateProbabilities params.contextSize fuel
      (buildInitialGraph corpus)).map convert2PCFG, seed)

/-- RDSGraph::setQuiet (RDSGraph.h). -/
def setQuiet (g : RDSGraph) (q : Bool) : RDSGraph :=
  { g with quiet := q }

/-- RDSGraph::clone (RDSGraph.cpp lines 1406-1427): a deep copy of every
field — in a value semantics model, the identity. -/
def cloneGraph (g : RDSGraph) : RDSGraph :=
  g

/-- RDSGraph::getPatternCount (RDSGraph.cpp lines 1393-1396). -/
def getPatternCount (g : RDSGraph) : Nat :=
  g.significant_patterns.length

/-- RDSGraph::getRewiringCount (RDSGraph.cpp lines 1401-1404). -/
def getRewiringCount (g : RDSGraph) : Nat :=
  g.rewiring_ops

/-- The graph states reachable through the mutating operations of
RDSGraph: construction from a corpus, the two rewire overloads that the
code actually invokes (EC installation and SP subsumption — distill and
generalise mutate the graph only through these), probability estimation,
setQuiet and clone.  Every state produced by the public API (the
constructor followed by any sequence of distill / setQuiet / clone
calls) is of this form. -/
inductive Reachable : RDSGraph → Prop
  | build (corpus : List (List String)) : Reachable (buildInitialGraph corpus)
  | rewire_ec (g : RDSGraph) (conns : List (Nat × Nat)) (ms : List Nat) :
      Reachable g → Reachable (rewireEC g conns ms)
  | rewire_sp (g : RDSGraph) (conns : List (Nat × Nat)) (cs : List Nat) :
      Reachable g → Reachable (rewireSP g conns cs)
  | estimate (g : RDSGraph) : Reachable g → Reachable (estimateProbabilities g)
  | set_quiet (g : RDSGraph) (q : Bool) : Reachable g → Reachable (setQuiet g q)
  | clone (g : RDSGraph) : Reachable g → Reachable (cloneGraph g)

/-- Claim C2 as stated: after the index rebuild, every Pattern node n
with children cs has, for every position i (cs[i] = cid), the pair (n, i)
in cid's parents list — including positions at which the same child id
occurs more than once. -/
def patternParentsComplete (g : RDSGraph) : Prop :=
  ∀ (n : Nat) (nd : RDSNode) (cs : List Nat), g.nodes[n]? = some nd → nd.lex = Lexicon.sp cs →
    ∀ (i cid : Nat) (cnd : RDSNode), cs[i]? = some cid → g.nodes[cid]? = some cnd →
      (n, i) ∈ cnd.parents

/-- A graph whose single Pattern node has the same child id at two
positions: distill on the corpus "a a" subsuming the occurrence at
offset 1 under the pattern [a, a]. -/
def duplicateChildGraph : RDSGraph :=
  rewireSP (buildInitialGraph [["a", "a"]]) [(0, 1)] [2, 2]

/-- Claim C1 as stated: every left-hand side of the emitted grammar has
probabilities summing to 1 within 1e-6, and every Pattern rule carries
probability 1. -/
def pcfgNormalised (g : RDSGraph) : Prop :=
  (∀ l, (∃ r ∈ convert2PCFG g, r.lhs = l) →
      |(lhsProbs (convert2PCFG g) l).sum - 1| ≤ 1 / 1000000) ∧
  (∀ r ∈ convert2PCFG g, (∃ n, r.lhs = PCFGLhs.P n) → r.prob = 1)

/-- A post-distillation state with an orphaned Pattern node: rewire was
reached with an empty connection list (the code path that prints
"[RDSGraph::rewire] Warning: empty connections vector" and returns before
touching the parse trees), after which distill's final
estimateProbabilities leaves the pattern with count 0. -/
def orphanPatternGraph : RDSGraph :=
  estimateProbabilities (rewireSP (buildInitialGraph [["a", "b"]]) [] [2, 3])

/-- Claim C3 as stated: a candidate whose generalised slot holds a
brand-new EC only has its pattern accepted when the slot lies strictly
inside the pattern range. -/
def newEcSlotStrictlyInside : Prop :=
  ∀ (gp : List Nat) (slot numNodes : Nat) (pat : Nat × Nat),
    gp.getD slot 0 ≥ numNodes →
    acceptGeneralPattern gp slot numNodes pat = true →
    pat.1 < slot ∧ slot < pat.2

/-- Claim C4 as stated: both overlap comparisons use the real-valued
fraction |A ∩ B| / |B|, and the commit stage installs a restricted
overlap class exactly when that ratio is < 1.0. -/
def overlapAlwaysRealFraction : Prop :=
  (∀ enc ec, bootstrapOverlapFrac enc ec
      = ((computeOverlapEC enc ec).length : ℚ) / (ec.length : ℚ)) ∧
  (∀ enc ec, commitOverlapFrac (computeOverlapEC enc ec).length ec.length
      = ((computeOverlapEC enc ec).length : ℚ) / (ec.length : ℚ)) ∧
  (∀ enc ec, installNewOverlapEC enc ec = true ↔
      ((computeOverlapEC enc ec).length : ℚ) / (ec.length : ℚ) < 1)

/-- Claim C7 as stated: any of eta, alpha, overlap_threshold outside
[0,1] makes parameter construction fail fast. -/
def invalidParamsRejected : Prop :=
  ∀ (eta alpha : ℚ) (cs : Nat) (ov : ℚ),
    (¬(0 ≤ eta ∧ eta ≤ 1) ∨ ¬(0 ≤ alpha ∧ alpha ≤ 1) ∨ ¬(0 ≤ ov ∧ ov ≤ 1)) →
    mkADIOSParams eta alpha cs ov = none

/-- The offsets of the connections of one path, in list order. -/
def offsetsIn (p : Nat) (conns : List (Nat × Nat)) : List Nat :=
  conns.filterMap (fun c => if c.1 = p then some c.2 else none)


/-- Relation between two node arenas: same length, pointwise identical
lexicons, and parents lists that only grew.  Every step of the
connection- and parent-rebuilding folds of updateAllConnections extends
the arena in this sense. -/
def ParentsExtend (ns ns2 : List RDSNode) : Prop :=
  ns.length = ns2.length ∧
  ∀ (j : Nat) (nd : RDSNode), ns[j]? = some nd →
    ∃ nd2, ns2[j]? = some nd2 ∧ nd2.lex = nd.lex ∧ nd.parents ⊆ nd2.parents

/-- A hand-built graph state with an EquivalenceClass node (4), a
Pattern node (5) and one path, whose counts are all positive. -/
def normalisedWitnessGraph : RDSGraph :=
  { nodes := [⟨Lexicon.start, [], []⟩, ⟨Lexicon.stop, [], []⟩, ⟨Lexicon.sym "a", [], []⟩,
      ⟨Lexicon.sym "b", [], []⟩, ⟨Lexicon.ec [2, 3], [], []⟩, ⟨Lexicon.sp [2, 3], [], []⟩],
    paths := [[0, 2, 3, 1]], trees := [], counts := [[1], [1], [1], [1], [2, 1], [1]],
    corpusSize := 4, quiet := false, significant_patterns := [], rewiring_ops := 0 }

/-- A connection list is grouped when it decomposes into contiguous
blocks of equal path indices, no path index recurring in a later block.
sortConnections always produces a grouped list. -/
inductive Grouped : List (Nat × Nat) → Prop
  | nil : Grouped []
  | block (x : Nat × Nat) (blk rest : List (Nat × Nat)) :
      (∀ y ∈ blk, y.1 = x.1) → (∀ y ∈ rest, y.1 ≠ x.1) → Grouped rest →
      Grouped (x :: blk ++ rest)

/-
  Helper lemmas.
-/

/-- A natural quotient is below 1 over the rationals exactly when the
numerator is smaller than the positive denominator. -/
theorem natCast_div_lt_one_iff (o e : Nat) (he : 0 < e) :
    ((o : ℚ) / (e : ℚ) < 1) ↔ o < e := by
  rw [div_lt_one (by exact_mod_cast he)]
  exact_mod_cast Iff.rfl

/-- Integer division of naturals is zero exactly on a smaller numerator. -/
theorem nat_div_eq_zero_iff (o e : Nat) (he : 0 < e) : o / e = 0 ↔ o < e := by
  constructor
  · intro h
    by_contra hlt
    have := Nat.div_pos (Nat.le_of_not_lt hlt) he
    omega
  · intro h
    exact Nat.div_eq_of_lt h

/-- The integer-divided ratio cast to the rationals is below 1 exactly on
a smaller numerator. -/
theorem commit_lt_one_iff (o e : Nat) (he : 0 < e) : ((o / e : Nat) : ℚ) < 1 ↔ o < e := by
  rw [show (1 : ℚ) = ((1 : Nat) : ℚ) from by norm_num, Nat.cast_lt, Nat.lt_one_iff]
  exact nat_div_eq_zero_iff o e he

/-
  Claim theorems.
-/

/-- Claim C3, counterexample: the acceptance test of the generalised
distillation stage accepts a pattern whose LEFT boundary coincides with
the brand-new-EC slot (slot 1, pattern range (1,3), placeholder id 9 with
5 graph nodes), contradicting the claim that only strictly interior slots
are accepted. -/
theorem claim_C3_counterexample : ¬ newEcSlotStrictlyInside := by
  intro h
  have h2 := h [9, 9, 9, 9] 1 5 (1, 3) (by decide) (by decide)
  exact absurd h2.1 (by decide)

/-- Claim C3, amended: for a candidate whose generalised slot holds a
brand-new EC (placeholder id ≥ nodes.size()), a significant pattern with
range (s, e) is accepted if and only if s ≤ slot ≤ e — boundary
coincidence included (the code skips only when slot < s or slot > e). -/
theorem claim_C3_amended : ∀ (gp : List Nat) (slot numNodes : Nat) (pat : Nat × Nat),
    gp.getD slot 0 ≥ numNodes →
    (acceptGeneralPattern gp slot numNodes pat = true ↔ pat.1 ≤ slot ∧ slot ≤ pat.2) := by
  intro gp slot numNodes pat h
  unfold acceptGeneralPattern
  rw [if_pos h]
  by_cases h2 : slot < pat.1 ∨ slot > pat.2
  · rw [if_pos h2]
    simp only [Bool.false_eq_true, false_iff]
    omega
  · rw [if_neg h2]
    simp only [true_iff]
    omega

/-- Claim C3, witness: the amended acceptance criterion evaluated at the
counterexample's concrete input. -/
theorem claim_C3_witness :
    ([9, 9, 9, 9] : List Nat).getD 1 0 ≥ 5 ∧
      (acceptGeneralPattern [9, 9, 9, 9] 1 5 (1, 3) = true ↔ (1, 3).1 ≤ 1 ∧ 1 ≤ (1, 3).2) :=
  ⟨by decide, claim_C3_amended [9, 9, 9, 9] 1 5 (1, 3) (by decide)⟩

/-- Claim C4, counterexample: with encountered class {5} and existing
class {5, 6}, the commit stage computes overlap_ec.size() /
best_exisiting_ec->size() in unsigned integer arithmetic, giving 0 rather
than the real-valued fraction 1/2. -/
theorem claim_C4_counterexample : ¬ overlapAlwaysRealFraction := by
  intro h
  have h2 := h.2.1 [5] [5, 6]
  rw [show computeOverlapEC [5] [5, 6] = [5] from by decide] at h2
  simp only [commitOverlapFrac, List.length_cons, List.length_nil] at h2
  norm_num at h2

/-- Claim C4, amended: the bootstrap stage does compute the real-valued
fraction |A ∩ B| / |B|, but the commit stage divides the two sizes as
unsigned integers (value 0 or 1); nevertheless the commit decision
"install a restricted overlap class as a new node iff ratio < 1.0" is
equivalent to |A ∩ B| < |B|, which is exactly where the real-valued
fraction is < 1. -/
theorem claim_C4_amended :
    (∀ enc ec, bootstrapOverlapFrac enc ec
        = ((computeOverlapEC enc ec).length : ℚ) / (ec.length : ℚ)) ∧
    (∀ enc ec, 0 < ec.length →
        (installNewOverlapEC enc ec = true ↔ (computeOverlapEC enc ec).length < ec.length)) ∧
    (∀ enc ec, 0 < ec.length →
        (installNewOverlapEC enc ec = true ↔
          ((computeOverlapEC enc ec).length : ℚ) / (ec.length : ℚ) < 1)) := by
  refine ⟨fun enc ec => rfl, ?_, ?_⟩
  · intro enc ec he
    unfold installNewOverlapEC commitOverlapFrac
    rw [decide_eq_true_iff]
    exact commit_lt_one_iff _ _ he
  · intro enc ec he
    unfold installNewOverlapEC commitOverlapFrac
    rw [decide_eq_true_iff, natCast_div_lt_one_iff _ _ he]
    exact commit_lt_one_iff _ _ he

/-- Claim C4, witness: the amended statements evaluated at the concrete
overlap pair A = {5}, B = {5, 6}. -/
theorem claim_C4_witness :
    0 < ([5, 6] : List Nat).length ∧
      (installNewOverlapEC [5] [5, 6] = true ↔ (computeOverlapEC [5] [5, 6]).length < ([5, 6] : List Nat).length) ∧
      (installNewOverlapEC [5] [5, 6] = true ↔
        ((computeOverlapEC [5] [5, 6]).length : ℚ) / (([5, 6] : List Nat).length : ℚ) < 1) :=
  ⟨by decide, claim_C4_amended.2.1 [5] [5, 6] (by decide), claim_C4_amended.2.2 [5] [5, 6] (by decide)⟩

/-- Claim C7, counterexample: overlap_threshold = 2 lies outside [0,1],
yet parameter construction succeeds — ADIOSParams::ADIOSParams asserts
only eta and alpha, and run_cli performs no range check at all, so the
program does not fail fast on an out-of-range overlap threshold. -/
theorem claim_C7_counterexample : ¬ invalidParamsRejected := by
  intro h
  have h2 := h (1 / 2) (1 / 2) 5 2 (Or.inr (Or.inr (by norm_num)))
  rw [mkADIOSParams] at h2
  norm_num at h2
  exact Option.noConfusion h2

/-- Claim C7, amended: parameter construction fails fast exactly when eta
or alpha lies outside [0,1]; contextSize and overlap_threshold are never
validated. -/
theorem claim_C7_amended : ∀ (eta alpha : ℚ) (cs : Nat) (ov : ℚ),
    mkADIOSParams eta alpha cs ov = none ↔
      (¬(0 ≤ eta ∧ eta ≤ 1) ∨ ¬(0 ≤ alpha ∧ alpha ≤ 1)) := by
  intro eta alpha cs ov
  unfold mkADIOSParams
  by_cases h1 : 0 ≤ eta ∧ eta ≤ 1 <;> by_cases h2 : 0 ≤ alpha ∧ alpha ≤ 1 <;>
    simp [h1, h2]

/-- Claim C10: on every reachable graph state the pattern and rewiring
counters report 0 — significant_patterns and rewiring_ops are initialised
empty/zero and no mutating operation ever updates them (clone merely
copies them). -/
theorem claim_C10_counters_zero : ∀ g, Reachable g →
    getPatternCount g = 0 ∧ getRewiringCount g = 0 := by
  intro g h
  induction h with
  | build corpus =>
    constructor <;> rfl
  | rewire_ec g conns ms hg ih =>
    simpa [getPatternCount, getRewiringCount, rewireEC, updateAllConnections] using ih
  | rewire_sp g conns cs hg ih =>
    unfold rewireSP
    split
    · simpa [getPatternCount, getRewiringCount] using ih
    · simpa [getPatternCount, getRewiringCount, updateAllConnections] using ih
  | estimate g hg ih =>
    simpa [getPatternCount, getRewiringCount, estimateProbabilities] using ih
  | set_quiet g q hg ih =>
    simpa [getPatternCount, getRewiringCount, setQuiet] using ih
  | clone g hg ih =>
    simpa [getPatternCount, getRewiringCount, cloneGraph] using ih

/-- Claim C10, witness: the counters of a freshly built graph. -/
theorem claim_C10_witness :
    getPatternCount (buildInitialGraph [["a"]]) = 0 ∧
      getRewiringCount (buildInitialGraph [["a"]]) = 0 :=
  claim_C10_counters_zero _ (Reachable.build [["a"]])

/-- Claim C6: in every pass of the distillation driver, each path (in
insertion order) is handed to generalised distillation exactly when
contextSize ≥ 3 and the path is at least contextSize long (the code's
dispatch condition (contextSize < 3) || (path.size() < contextSize) is
its exact negation), and the outer loop stops precisely when one full
pass finds no pattern, after which estimateProbabilities runs on the
resulting state. -/
theorem claim_C6_driver : ∀ (σ : Type) (pathsOf : σ → List (List Nat))
    (pd gd : σ → List Nat → σ × Bool) (est : σ → σ) (cs : Nat),
    (∀ (s : σ) (path : List Nat),
        (if cs < 3 ∨ path.length < cs then pd s path else gd s path)
          = (if 3 ≤ cs ∧ cs ≤ path.length then gd s path else pd s path)) ∧
    (∀ (fuel : Nat) (s t : σ),
        distillDriver pathsOf pd gd est cs fuel s = some t →
        ∃ s2, (distillPass pathsOf pd gd cs s2).2 = false ∧
          t = est (distillPass pathsOf pd gd cs s2).1) := by
  intro σ pathsOf pd gd est cs
  constructor
  · intro s path
    by_cases h : cs < 3 ∨ path.length < cs
    · rw [if_pos h, if_neg (by omega)]
    · rw [if_neg h, if_pos (by omega)]
  · intro fuel
    induction fuel with
    | zero =>
      intro s t h
      exact absurd h (by simp [distillDriver])
    | succ n ih =>
      intro s t h
      rw [distillDriver] at h
      by_cases hr : (distillPass pathsOf pd gd cs s).2 = true
      · rw [if_pos hr] at h
        exact ih _ _ h
      · rw [if_neg hr] at h
        exact ⟨s, by simpa using hr, (Option.some_inj.mp h).symm⟩

/-- Claim C6, witness: the driver on an empty path list stops after its
first pass and applies the estimator. -/
theorem claim_C6_witness :
    distillDriver (fun _ : Nat => ([] : List (List Nat))) (fun s _ => (s, false))
        (fun s _ => (s, false)) id 0 1 0 = some 0 ∧
      ∃ s2, (distillPass (fun _ : Nat => ([] : List (List Nat))) (fun s _ => (s, false))
          (fun s _ => (s, false)) 0 s2).2 = false ∧
        (0 : Nat) = id (distillPass (fun _ : Nat => ([] : List (List Nat)))
          (fun s _ => (s, false)) (fun s _ => (s, false)) 0 s2).1 :=
  ⟨rfl,
    (claim_C6_driver Nat (fun _ => []) (fun s _ => (s, false)) (fun s _ => (s, false)) id 0).2
      1 0 0 rfl⟩

/-- Claim C8: with the RNG seeded at construction, building, distilling
and emitting is a pure function of the corpus, the parameters and the
per-path workers: no stage before emission draws from the RNG (rand() is
only consulted by the generate overloads), so the emitted grammar is
independent of the seed — in particular two runs with the same seed are
byte-identical. -/
theorem claim_C8_determinism : ∀ (pd gd : RDSGraph → List Nat → RDSGraph × Bool)
    (fuel : Nat) (corpus : List (List String)) (params : ADIOSParamsQ) (s1 s2 : Nat),
    (emitPipeline pd gd fuel corpus params s1).1 = (emitPipeline pd gd fuel corpus params s1).1 ∧
    (emitPipeline pd gd fuel corpus params s1).1 = (emitPipeline pd gd fuel corpus params s2).1 := by
  intro pd gd fuel corpus params s1 s2
  exact ⟨rfl, rfl⟩

/-- Claim C9: for a node whose lexicon is an empty EquivalenceClass,
generate(node) computes randomUnit = floor(0 * uniform_rand()) = 0 and
fails on ec->at(0) (std::out_of_range, modelled as none), for any RNG
stream and any draw position, whereas generate(search_path) guards with
ec->size() > 0 and skips the empty class, returning cleanly. -/
theorem claim_C9_empty_ec : ∀ (nodes : List RDSNode) (rng : Nat → ℚ)
    (fuel n t : Nat) (nd : RDSNode),
    nodes[n]? = some nd → nd.lex = Lexicon.ec [] →
    generateNode nodes rng (fuel + 1) n t = none ∧
    generatePath nodes rng fuel [n] t = some ([], t) := by
  intro nodes rng fuel n t nd h hlex
  constructor
  · rw [generateNode]
    simp [h, hlex]
  · simp [generatePath, h, hlex]

/-- Claim C9, witness: the single-node graph holding one empty
equivalence class. -/
theorem claim_C9_witness :
    ([(⟨Lexicon.ec [], [], []⟩ : RDSNode)] : List RDSNode)[0]? = some ⟨Lexicon.ec [], [], []⟩ ∧
      (⟨Lexicon.ec [], [], []⟩ : RDSNode).lex = Lexicon.ec [] ∧
      generateNode [⟨Lexicon.ec [], [], []⟩] (fun _ => 0) 1 0 0 = none ∧
      generatePath [⟨Lexicon.ec [], [], []⟩] (fun _ => 0) 0 [0] 0 = some ([], 0) :=
  ⟨rfl, rfl,
    (claim_C9_empty_ec [⟨Lexicon.ec [], [], []⟩] (fun _ => 0) 0 0 0 _ rfl rfl).1,
    (claim_C9_empty_ec [⟨Lexicon.ec [], [], []⟩] (fun _ => 0) 0 0 0 _ rfl rfl).2⟩

/-- An index holding a value is in bounds. -/
theorem getElem?_lt_length {α : Type} (l : List α) (i : Nat) (a : α)
    (h : l[i]? = some a) : i < l.length := by
  by_contra hc
  rw [List.getElem?_eq_none (by omega)] at h
  exact Option.noConfusion h

theorem parentsExtend_refl (ns : List RDSNode) : ParentsExtend ns ns :=
  ⟨rfl, fun _ nd h => ⟨nd, h, rfl, fun _ hx => hx⟩⟩

theorem parentsExtend_trans {a b c : List RDSNode} :
    ParentsExtend a b → ParentsExtend b c → ParentsExtend a c := by
  rintro ⟨h1, h2⟩ ⟨h3, h4⟩
  refine ⟨h1.trans h3, fun j nd h => ?_⟩
  obtain ⟨nd2, hb, hlex, hsub⟩ := h2 j nd h
  obtain ⟨nd3, hc, hlex2, hsub2⟩ := h4 j nd2 hb
  exact ⟨nd3, hc, hlex2.trans hlex, fun x hx => hsub2 (hsub hx)⟩

/-- A node modification that keeps the lexicon and only appends parents
extends the arena. -/
theorem modifyNode_extend (ns : List RDSNode) (i : Nat) (f : RDSNode → RDSNode)
    (hf : ∀ nd, (f nd).lex = nd.lex ∧ nd.parents ⊆ (f nd).parents) :
    ParentsExtend ns (modifyNode ns i f) := by
  unfold modifyNode
  cases h : ns[i]? with
  | none => exact parentsExtend_refl ns
  | some nd0 =>
    have hi : i < ns.length := getElem?_lt_length ns i nd0 h
    refine ⟨(List.length_set ns i (f nd0)).symm, fun j nd hj => ?_⟩
    by_cases hij : i = j
    · subst hij
      rw [h] at hj
      injection hj with hj2
      subst hj2
      exact ⟨f nd0, List.getElem?_set_self hi, (hf nd0).1, (hf nd0).2⟩
    · exact ⟨nd, by rw [List.getElem?_set_ne hij]; exact hj, rfl, fun _ hx => hx⟩

theorem pushParent_extend (ns : List RDSNode) (c : Nat) (p : Nat × Nat) :
    ParentsExtend ns (pushParent ns c p) :=
  modifyNode_extend ns c _ (fun _ => ⟨rfl, fun _ hx => List.mem_append_left _ hx⟩)

/-- A fold whose every step extends the arena extends the arena. -/
theorem foldl_parentsExtend {β : Type} (f : List RDSNode → β → List RDSNode)
    (hf : ∀ a x, ParentsExtend a (f a x)) :
    ∀ (l : List β) (a : List RDSNode), ParentsExtend a (l.foldl f a) := by
  intro l
  induction l with
  | nil => exact fun a => parentsExtend_refl a
  | cons x xs ih => exact fun a => parentsExtend_trans (hf a x) (ih (f a x))

theorem spParentStep_extend (i : Nat) (cs : List Nat) (ms : List RDSNode) (c : Nat) :
    ParentsExtend ms (spParentStep i cs ms c) := by
  unfold spParentStep
  cases h : findFirstIndex cs c with
  | some k => exact pushParent_extend ms c (i, k)
  | none => exact parentsExtend_refl ms

theorem addParentsForNode_extend (ns : List RDSNode) (i : Nat) :
    ParentsExtend ns (addParentsForNode ns i) := by
  unfold addParentsForNode
  split
  · split
    all_goals
      first
        | exact parentsExtend_refl ns
        | exact foldl_parentsExtend _ (spParentStep_extend i _) _ ns
        | exact foldl_parentsExtend _ (fun a m => pushParent_extend a m (i, 0)) _ ns
  · exact parentsExtend_refl ns

theorem addConnectionsForPath_extend (ns : List RDSNode) (i : Nat) (path : List Nat) :
    ParentsExtend ns (addConnectionsForPath ns i path) :=
  foldl_parentsExtend _
    (fun a j => modifyNode_extend a (path.getD j 0)
      (fun nd => { nd with connections := nd.connections ++ [(i, j)] })
      (fun _ => ⟨rfl, fun _ hx => hx⟩))
    (List.range path.length) ns

theorem addAllConnections_extend (ns : List RDSNode) (paths : List (List Nat)) :
    ParentsExtend ns (addAllConnections ns paths) :=
  foldl_parentsExtend _ (fun a i => addConnectionsForPath_extend a i (paths.getD i []))
    (List.range paths.length) ns

/-- The pushed parent entry is present afterwards. -/
theorem pushParent_mem_self (ns : List RDSNode) (c : Nat) (p : Nat × Nat)
    (hc : c < ns.length) :
    ∀ cnd, (pushParent ns c p)[c]? = some cnd → p ∈ cnd.parents := by
  intro cnd h
  unfold pushParent modifyNode at h
  cases hn : ns[c]? with
  | none =>
    exact absurd hn (by rw [List.getElem?_eq_getElem hc]; exact fun hh => Option.noConfusion hh)
  | some nd0 =>
    simp only [hn, List.getElem?_set_self hc] at h
    obtain rfl := Option.some_inj.mp h.symm
    exact List.mem_append_right _ (List.mem_singleton.mpr rfl)

/-- The first index returned by findFirstIndex exists and is at most any
position where the element occurs. -/
theorem findFirstIndex_le : ∀ (cs : List Nat) (i cid : Nat), cs[i]? = some cid →
    ∃ k, findFirstIndex cs cid = some k ∧ k ≤ i := by
  intro cs
  induction cs with
  | nil => intro i cid h; simp at h
  | cons x xs ih =>
    intro i cid h
    by_cases hx : x = cid
    · exact ⟨0, by simp [findFirstIndex, hx], Nat.zero_le i⟩
    · cases i with
      | zero =>
        rw [List.getElem?_cons_zero] at h
        exact absurd (Option.some_inj.mp h) hx
      | succ m =>
        rw [List.getElem?_cons_succ] at h
        obtain ⟨k, hk, hle⟩ := ih m cid h
        exact ⟨k + 1, by simp [findFirstIndex, hx, hk], by omega⟩

/-- Folding the SP parent step over the child list records the entry
(i, first index of cid) in cid's parents. -/
theorem spFold_mem (n : Nat) (cs : List Nat) (ns : List RDSNode) (cid k : Nat)
    (hmem : cid ∈ cs) (hk : findFirstIndex cs cid = some k) (hlt : cid < ns.length) :
    ∀ cnd, (cs.foldl (spParentStep n cs) ns)[cid]? = some cnd → (n, k) ∈ cnd.parents := by
  obtain ⟨l1, l2, hcs⟩ := List.append_of_mem hmem
  subst hcs
  intro cnd hcnd
  rw [List.foldl_append, List.foldl_cons] at hcnd
  have hext1 : ParentsExtend ns (l1.foldl (spParentStep n (l1 ++ cid :: l2)) ns) :=
    foldl_parentsExtend _ (spParentStep_extend n (l1 ++ cid :: l2)) l1 ns
  set ns1 := l1.foldl (spParentStep n (l1 ++ cid :: l2)) ns with hns1
  have hstep : spParentStep n (l1 ++ cid :: l2) ns1 cid = pushParent ns1 cid (n, k) := by
    unfold spParentStep
    rw [hk]
  rw [hstep] at hcnd
  set ns2 := pushParent ns1 cid (n, k) with hns2
  have hlt1 : cid < ns1.length := hext1.1 ▸ hlt
  have hlt2 : cid < ns2.length := (pushParent_extend ns1 cid (n, k)).1 ▸ hlt1
  have hext2 : ParentsExtend ns2 (l2.foldl (spParentStep n (l1 ++ cid :: l2)) ns2) :=
    foldl_parentsExtend _ (spParentStep_extend n (l1 ++ cid :: l2)) l2 ns2
  obtain ⟨nd2, hnd2⟩ : ∃ a, ns2[cid]? = some a := ⟨ns2[cid], List.getElem?_eq_getElem hlt2⟩
  obtain ⟨nd3, hnd3, _, hsub⟩ := hext2.2 cid nd2 hnd2
  rw [hcnd] at hnd3
  obtain rfl := Option.some_inj.mp hnd3
  exact hsub (pushParent_mem_self ns1 cid (n, k) hlt1 nd2 hnd2)

/-- The third phase of the index rebuild records, for every
SignificantPattern node n with child cid, the entry
(n, first index of cid) in cid's parents. -/
theorem addAllParents_mem (ns : List RDSNode) (n : Nat) (nd0 : RDSNode) (cs : List Nat)
    (hn : ns[n]? = some nd0) (hlex : nd0.lex = Lexicon.sp cs)
    (cid k : Nat) (hmem : cid ∈ cs) (hk : findFirstIndex cs cid = some k)
    (hcid : cid < ns.length) :
    ∀ cnd, (addAllParents ns)[cid]? = some cnd → (n, k) ∈ cnd.parents := by
  have hnlt : n < ns.length := getElem?_lt_length ns n nd0 hn
  have hsplit : List.range ns.length
      = (List.range n ++ [n]) ++ (List.range (ns.length - (n + 1))).map ((n + 1) + ·) := by
    rw [← List.range_succ, ← List.range_add]
    congr 1
    omega
  intro cnd hcnd
  unfold addAllParents at hcnd
  rw [hsplit, List.foldl_append, List.foldl_append, List.foldl_cons, List.foldl_nil] at hcnd
  have hext1 : ParentsExtend ns ((List.range n).foldl addParentsForNode ns) :=
    foldl_parentsExtend _ addParentsForNode_extend (List.range n) ns
  set ns1 := (List.range n).foldl addParentsForNode ns with hns1
  obtain ⟨nd1, hnd1, hlex1, _⟩ := hext1.2 n nd0 hn
  have hstep : addParentsForNode ns1 n = cs.foldl (spParentStep n cs) ns1 := by
    unfold addParentsForNode
    simp only [hnd1, hlex1, hlex]
  rw [hstep] at hcnd
  set ns2 := cs.foldl (spParentStep n cs) ns1 with hns2
  have hlt1 : cid < ns1.length := hext1.1 ▸ hcid
  have hext2 : ParentsExtend ns1 ns2 :=
    foldl_parentsExtend _ (spParentStep_extend n cs) cs ns1
  have hlt2 : cid < ns2.length := hext2.1 ▸ hlt1
  have hext3 : ParentsExtend ns2
      (((List.range (ns.length - (n + 1))).map ((n + 1) + ·)).foldl addParentsForNode ns2) :=
    foldl_parentsExtend _ addParentsForNode_extend _ ns2
  obtain ⟨nd2, hnd2⟩ : ∃ a, ns2[cid]? = some a := ⟨ns2[cid], List.getElem?_eq_getElem hlt2⟩
  obtain ⟨nd3, hnd3, _, hsub⟩ := hext3.2 cid nd2 hnd2
  rw [hcnd] at hnd3
  obtain rfl := Option.some_inj.mp hnd3
  exact hsub (spFold_mem n cs ns1 cid k hmem hk hlt1 nd2 hnd2)

/-- Claim C2, counterexample: distilling the corpus "a a" and subsuming
the occurrence at offset 1 under the pattern [a, a] (node 3 with children
[2, 2]) leaves node 2 with parents [(3, 0), (3, 0)] — the pair (3, 1) for
the second position is NOT recorded, because
SignificantPattern::find(sp->at(j)) always returns the FIRST index of the
child id. -/
theorem claim_C2_counterexample : ¬ patternParentsComplete duplicateChildGraph := by
  intro h
  have h2 := h 3 ⟨Lexicon.sp [2, 2], [(0, 1)], []⟩ [2, 2] (by decide) rfl 1 2
      ⟨Lexicon.sym "a", [], [(3, 0), (3, 0)]⟩ (by decide) (by decide)
  exact absurd h2 (by decide)

/-- Claim C2, amended: after the index rebuild, every Pattern node n with
children cs has, for every position i with cs[i] = cid, the pair
(n, k) in cid's parents where k is the FIRST index at which cid occurs in
cs (k ≤ i, with k = i whenever the child id is not repeated); positions
of repeated children beyond the first are not recorded. -/
theorem claim_C2_amended : ∀ (g : RDSGraph) (n : Nat) (nd : RDSNode) (cs : List Nat),
    g.nodes[n]? = some nd → nd.lex = Lexicon.sp cs →
    ∀ (i cid : Nat), cs[i]? = some cid → cid < g.nodes.length →
    ∃ k, findFirstIndex cs cid = some k ∧ k ≤ i ∧
      ∀ cnd, (updateAllConnections g).nodes[cid]? = some cnd → (n, k) ∈ cnd.parents := by
  intro g n nd cs h hlex i cid hcid hbound
  obtain ⟨k, hk, hki⟩ := findFirstIndex_le cs i cid hcid
  refine ⟨k, hk, hki, ?_⟩
  have hnodes : (updateAllConnections g).nodes
      = addAllParents (addAllConnections (clearIndexLists g.nodes) g.paths) := rfl
  rw [hnodes]
  have hclear : (clearIndexLists g.nodes)[n]?
      = some { nd with connections := [], parents := [] } := by
    unfold clearIndexLists
    rw [List.getElem?_map, h]
    rfl
  have hlenclear : (clearIndexLists g.nodes).length = g.nodes.length := by
    unfold clearIndexLists
    exact List.length_map _ _
  have hext0 : ParentsExtend (clearIndexLists g.nodes)
      (addAllConnections (clearIndexLists g.nodes) g.paths) :=
    addAllConnections_extend _ g.paths
  obtain ⟨nd0, hnd0, hlex0, _⟩ := hext0.2 n _ hclear
  have hlexns0 : nd0.lex = Lexicon.sp cs := by rw [hlex0]; exact hlex
  have hlen0 : (addAllConnections (clearIndexLists g.nodes) g.paths).length
      = g.nodes.length := by rw [← hext0.1, hlenclear]
  have hbound0 : cid < (addAllConnections (clearIndexLists g.nodes) g.paths).length :=
    hlen0 ▸ hbound
  exact addAllParents_mem _ n nd0 cs hnd0 hlexns0 cid k
    (List.getElem?_mem hcid) hk hbound0

/-- Claim C2, witness: the amended parent invariant evaluated on the
duplicate-child pattern graph (first index k = 0 for position i = 1). -/
theorem claim_C2_witness :
    duplicateChildGraph.nodes[3]? = some ⟨Lexicon.sp [2, 2], [(0, 1)], []⟩ ∧
      ([2, 2] : List Nat)[1]? = some 2 ∧ 2 < duplicateChildGraph.nodes.length ∧
      ∃ k, findFirstIndex [2, 2] 2 = some k ∧ k ≤ 1 ∧
        ∀ cnd, (updateAllConnections duplicateChildGraph).nodes[2]? = some cnd →
          (3, k) ∈ cnd.parents :=
  ⟨by decide, by decide, by decide,
    claim_C2_amended duplicateChildGraph 3 ⟨Lexicon.sp [2, 2], [(0, 1)], []⟩ [2, 2]
      (by decide) rfl 1 2 (by decide) (by decide)⟩

/-- Dividing each entry of a list by a fixed rational and summing is the
sum divided by that rational. -/
theorem sum_map_div_q (l : List ℚ) (T : ℚ) : (l.map (fun q => q / T)).sum = l.sum / T := by
  induction l with
  | nil => simp
  | cons x xs ih => simp [ih, add_div]

theorem lhsProbs_append (a b : List PCFGRule) (l : PCFGLhs) :
    lhsProbs (a ++ b) l = lhsProbs a l ++ lhsProbs b l := by
  unfold lhsProbs
  rw [List.filter_append, List.map_append]

theorem lhsProbs_flatten (Ls : List (List PCFGRule)) (l : PCFGLhs) :
    lhsProbs Ls.flatten l = (Ls.map (fun rs => lhsProbs rs l)).flatten := by
  induction Ls with
  | nil => rfl
  | cons x xs ih => rw [List.flatten_cons, lhsProbs_append, List.map_cons, List.flatten_cons, ih]

theorem lhsProbs_eq_nil (rules : List PCFGRule) (l : PCFGLhs)
    (h : ∀ r ∈ rules, r.lhs ≠ l) : lhsProbs rules l = [] := by
  unfold lhsProbs
  rw [List.filter_eq_nil_iff.mpr (by intro r hr; simpa using h r hr)]
  rfl

theorem flatten_nil_of_all {α : Type} (L : List (List α)) (h : ∀ x ∈ L, x = []) :
    L.flatten = [] := by
  induction L with
  | nil => rfl
  | cons x xs ih =>
    rw [List.flatten_cons, h x (by simp), ih (fun y hy => h y (by simp [hy]))]
    rfl

/-- Every rule convert2PCFG emits for node m is an E m or a P m rule. -/
theorem nodeRulesFor_lhs (g : RDSGraph) (m : Nat) :
    ∀ r ∈ nodeRulesFor g m, r.lhs = PCFGLhs.E m ∨ r.lhs = PCFGLhs.P m := by
  intro r hr
  unfold nodeRulesFor at hr
  cases hm : g.nodes[m]? with
  | none =>
    simp only [hm] at hr
    exact absurd hr (List.not_mem_nil r)
  | some nd =>
    simp only [hm] at hr
    cases hlex : nd.lex <;> simp only [hlex] at hr
    · exact absurd hr (List.not_mem_nil r)
    · exact absurd hr (List.not_mem_nil r)
    · exact absurd hr (List.not_mem_nil r)
    · rw [List.mem_singleton] at hr
      subst hr
      exact Or.inr rfl
    · obtain ⟨j, _, rfl⟩ := List.mem_map.mp hr
      exact Or.inl rfl

/-- Every S-rule of convert2PCFG carries the left-hand side S. -/
theorem sRulesFor_lhs (g : RDSGraph) : ∀ r ∈ sRulesFor g, r.lhs = PCFGLhs.S := by
  intro r hr
  simp only [sRulesFor] at hr
  obtain ⟨x, _, rfl⟩ := List.mem_map.mp hr
  rfl

/-- A batch of per-node rule lists none of which matches the wanted
left-hand side flattens to nothing. -/
theorem lhsProbs_pieces_nil (g : RDSGraph) (l : PCFGLhs) (idxs : List Nat)
    (hz : ∀ m ∈ idxs, lhsProbs (nodeRulesFor g m) l = []) :
    ((idxs.map (nodeRulesFor g)).map (fun rs => lhsProbs rs l)).flatten = [] := by
  apply flatten_nil_of_all
  intro x hx
  rw [List.map_map] at hx
  obtain ⟨m, hm, rfl⟩ := List.mem_map.mp hx
  exact hz m hm

/-- The rules the emitted grammar carries under E n (resp. P n) are
exactly the rules emitted for node n. -/
theorem lhsProbs_convert_node (g : RDSGraph) (n : Nat) (l : PCFGLhs)
    (hn : n < g.nodes.length) (hl : l = PCFGLhs.E n ∨ l = PCFGLhs.P n) :
    lhsProbs (convert2PCFG g) l = lhsProbs (nodeRulesFor g n) l := by
  unfold convert2PCFG
  rw [lhsProbs_append,
    lhsProbs_eq_nil (sRulesFor g) l
      (fun r hr => by rcases hl with rfl | rfl <;> simp [sRulesFor_lhs g r hr]),
    List.append_nil, lhsProbs_flatten]
  have hsplit : List.range g.nodes.length
      = (List.range n ++ [n]) ++ (List.range (g.nodes.length - (n + 1))).map ((n + 1) + ·) := by
    rw [← List.range_succ, ← List.range_add]
    congr 1
    omega
  have hzero : ∀ m : Nat, m ≠ n → lhsProbs (nodeRulesFor g m) l = [] := by
    intro m hm
    apply lhsProbs_eq_nil
    intro r hr
    rcases nodeRulesFor_lhs g m r hr with h1 | h1 <;> rcases hl with rfl | rfl <;>
      simp [h1] <;> omega
  rw [hsplit]
  simp only [List.map_append, List.flatten_append, List.map_cons,
    List.map_nil, List.flatten_cons, List.flatten_nil]
  rw [lhsProbs_pieces_nil g l (List.range n) (by
      intro m hm
      exact hzero m (by simp at hm; omega)),
    lhsProbs_pieces_nil g l ((List.range (g.nodes.length - (n + 1))).map ((n + 1) + ·)) (by
      intro m hm
      simp only [List.mem_map, List.mem_range] at hm
      obtain ⟨j, _, hjm⟩ := hm
      exact hzero m (by omega))]
  simp

/-- Filtering a uniformly-labelled rule batch for its own label keeps
everything and projects the probabilities. -/
theorem lhsProbs_of_uniform (l : PCFGLhs) (L : Nat) (rh : Nat → List String) (f : Nat → ℚ) :
    lhsProbs ((List.range L).map (fun j => ⟨l, rh j, f j⟩)) l = (List.range L).map f := by
  unfold lhsProbs
  rw [List.filter_eq_self.mpr (by
    intro r hr
    obtain ⟨j, _, rfl⟩ := List.mem_map.mp hr
    simp), List.map_map]
  rfl

/-- An EC node with a positive estimated total emits probabilities
summing to exactly 1. -/
theorem ecRules_sum_one (g : RDSGraph) (n : Nat) (nd : RDSNode) (ms : List Nat)
    (hn : g.nodes[n]? = some nd) (hlex : nd.lex = Lexicon.ec ms)
    (htot : 0 < ecCountTotal g n ms) :
    (lhsProbs (convert2PCFG g) (PCFGLhs.E n)).sum = 1 := by
  rw [lhsProbs_convert_node g n _ (getElem?_lt_length _ _ _ hn) (Or.inl rfl)]
  unfold nodeRulesFor
  simp only [hn, hlex]
  rw [lhsProbs_of_uniform]
  rw [show (fun j => (((g.counts.getD n []).getD j 0 : Nat) : ℚ) /
        (if ((ecCountTotal g n ms : Nat) : ℚ) = 0 then 1 else ((ecCountTotal g n ms : Nat) : ℚ)))
      = (fun q => q / (if ((ecCountTotal g n ms : Nat) : ℚ) = 0 then 1
          else ((ecCountTotal g n ms : Nat) : ℚ)))
        ∘ (fun j => (((g.counts.getD n []).getD j 0 : Nat) : ℚ)) from rfl]
  rw [← List.map_map, sum_map_div_q]
  have hcast : ((List.range ms.length).map
      (fun j => (((g.counts.getD n []).getD j 0 : Nat) : ℚ))).sum
      = ((ecCountTotal g n ms : Nat) : ℚ) := by
    unfold ecCountTotal
    rw [Nat.cast_list_sum, List.map_map]
    rfl
  have hne : ((ecCountTotal g n ms : Nat) : ℚ) ≠ 0 := by
    exact_mod_cast Nat.pos_iff_ne_zero.mp htot
  rw [hcast, if_neg hne]
  exact div_self hne

/-- An SP node with a positive estimated count emits a single rule of
probability exactly 1. -/
theorem spRule_prob_one (g : RDSGraph) (n : Nat) (nd : RDSNode) (cs : List Nat)
    (hn : g.nodes[n]? = some nd) (hlex : nd.lex = Lexicon.sp cs)
    (hcnt : 0 < (g.counts.getD n []).getD 0 0) :
    lhsProbs (convert2PCFG g) (PCFGLhs.P n) = [1] := by
  rw [lhsProbs_convert_node g n _ (getElem?_lt_length _ _ _ hn) (Or.inr rfl)]
  unfold nodeRulesFor
  simp only [hn, hlex]
  unfold lhsProbs
  have hne : (((g.counts.getD n []).getD 0 0 : Nat) : ℚ) ≠ 0 := by
    exact_mod_cast Nat.pos_iff_ne_zero.mp hcnt
  simp only [List.filter_cons, List.filter_nil, decide_eq_true_eq, if_pos rfl,
    List.map_cons, List.map_nil]
  rw [if_neg hne, div_self hne]
  simp

/-- List.count under any lawful BEq instance agrees with the instance
Mathlib derives from decidable equality. -/
theorem count_transport {α : Type} [DecidableEq α] [BEq α] [LawfulBEq α] (a : α) (l : List α) :
    List.count a l = @List.count α instBEqOfDecidableEq a l := by
  unfold List.count
  apply List.countP_congr
  intro x _
  rw [beq_eq_decide]
  simp [instBEqOfDecidableEq]

/-- Counting every distinct element of a list once covers its length. -/
theorem sum_map_count_dedup_len {α : Type} [DecidableEq α] [BEq α] [LawfulBEq α] (l : List α) :
    (l.dedup.map (fun x => l.count x)).sum = l.length := by
  rw [show (fun x => l.count x) = (fun x => @List.count α instBEqOfDecidableEq x l) from
    funext (fun x => count_transport x l)]
  exact List.sum_map_count_dedup_eq_length l

/-- With a nonempty path list, the S-rules' probabilities sum to
exactly 1. -/
theorem sRules_sum_one (g : RDSGraph) (hpaths : g.paths ≠ []) :
    (lhsProbs (convert2PCFG g) PCFGLhs.S).sum = 1 := by
  unfold convert2PCFG
  rw [lhsProbs_append, lhsProbs_flatten]
  rw [lhsProbs_pieces_nil g PCFGLhs.S (List.range g.nodes.length) (by
      intro m hm
      apply lhsProbs_eq_nil
      intro r hr
      rcases nodeRulesFor_lhs g m r hr with h1 | h1 <;> simp [h1])]
  rw [List.nil_append]
  unfold sRulesFor
  unfold lhsProbs
  have hpos : 0 < (g.paths.map (fun p => ((p.drop 1).dropLast).map (printNodeName g))).length := by
    rw [List.length_map]
    exact List.length_pos.mpr hpaths
  set rhss := g.paths.map (fun p => ((p.drop 1).dropLast).map (printNodeName g)) with hrhss
  rw [List.filter_eq_self.mpr (by
    intro r hr
    obtain ⟨x, _, rfl⟩ := List.mem_map.mp hr
    simp), List.map_map]
  have hif : (PCFGRule.prob ∘ fun r =>
      (⟨PCFGLhs.S, r, if rhss.length > 0 then ((rhss.count r : Nat) : ℚ) / (rhss.length : ℚ)
        else 1⟩ : PCFGRule))
      = fun r => ((rhss.count r : Nat) : ℚ) / (rhss.length : ℚ) := by
    funext r
    simp only [Function.comp]
    rw [if_pos hpos]
  rw [hif,
    show (fun r => ((rhss.count r : Nat) : ℚ) / (rhss.length : ℚ))
      = (fun q => q / (rhss.length : ℚ)) ∘ (fun r : List String => ((rhss.count r : Nat) : ℚ))
      from rfl,
    ← List.map_map, sum_map_div_q]
  have hc : ((rhss.dedup.map (fun r : List String => ((rhss.count r : Nat) : ℚ))).sum)
      = ((rhss.length : Nat) : ℚ) := by
    rw [show (fun r : List String => ((rhss.count r : Nat) : ℚ))
        = (Nat.cast ∘ fun r : List String => rhss.count r) from rfl,
      ← List.map_map, ← Nat.cast_list_sum, sum_map_count_dedup_len]
  rw [hc]
  exact div_self (by exact_mod_cast Nat.pos_iff_ne_zero.mp hpos)

/-- A left-hand side with at least one probability has at least one
rule. -/
theorem exists_rule_of_lhsProbs (rules : List PCFGRule) (l : PCFGLhs)
    (h : lhsProbs rules l ≠ []) : ∃ r ∈ rules, r.lhs = l := by
  unfold lhsProbs at h
  cases hf : rules.filter (fun r => decide (r.lhs = l)) with
  | nil => rw [hf] at h; simp at h
  | cons r rs =>
    have hr : r ∈ rules.filter (fun r => decide (r.lhs = l)) := by
      rw [hf]
      exact List.mem_cons_self r rs
    rw [List.mem_filter] at hr
    exact ⟨r, hr.1, by simpa using hr.2⟩

/-- Claim C1, counterexample: the post-distillation state
orphanPatternGraph (pattern node 4 was pushed by a rewire that received
an empty connection list, so estimateProbabilities leaves it with count
0) emits P4 -> a b with probability 0/1 = 0: the P4 probabilities sum to
0, not 1 ± 1e-6, and the Pattern rule does not carry probability 1.0. -/
theorem claim_C1_counterexample : ¬ pcfgNormalised orphanPatternGraph := by
  intro h
  have hvals : lhsProbs (convert2PCFG orphanPatternGraph) (PCFGLhs.P 4) = [0] := by
    rw [lhsProbs_convert_node orphanPatternGraph 4 (PCFGLhs.P 4) (by decide) (Or.inr rfl)]
    unfold nodeRulesFor
    simp only [show orphanPatternGraph.nodes[4]? = some ⟨Lexicon.sp [2, 3], [], []⟩ from by decide,
      show (orphanPatternGraph.counts.getD 4 []).getD 0 0 = 0 from by decide]
    unfold lhsProbs
    norm_num
  have hmem := exists_rule_of_lhsProbs _ _ (by rw [hvals]; simp)
  have h2 := h.1 (PCFGLhs.P 4) hmem
  rw [hvals] at h2
  norm_num at h2

/-- Claim C1, amended: every left-hand side of the emitted grammar whose
estimated count total is positive has probabilities summing to exactly 1
(hence within 1e-6): an EC node with positive total sums to 1, an SP node
with positive count emits its single rule with probability exactly 1, and
the S rules of a nonempty corpus sum to 1.  (A node with count total 0 —
an orphaned pattern or class — instead emits probabilities summing to 0,
because convert2PCFG replaces the zero total by 1.) -/
theorem claim_C1_amended :
    (∀ (g : RDSGraph) (n : Nat) (nd : RDSNode) (ms : List Nat),
        g.nodes[n]? = some nd → nd.lex = Lexicon.ec ms → 0 < ecCountTotal g n ms →
        (lhsProbs (convert2PCFG g) (PCFGLhs.E n)).sum = 1) ∧
    (∀ (g : RDSGraph) (n : Nat) (nd : RDSNode) (cs : List Nat),
        g.nodes[n]? = some nd → nd.lex = Lexicon.sp cs →
        0 < (g.counts.getD n []).getD 0 0 →
        lhsProbs (convert2PCFG g) (PCFGLhs.P n) = [1]) ∧
    (∀ g : RDSGraph, g.paths ≠ [] → (lhsProbs (convert2PCFG g) PCFGLhs.S).sum = 1) :=
  ⟨fun g n nd ms hn hl ht => ecRules_sum_one g n nd ms hn hl ht,
   fun g n nd cs hn hl hc => spRule_prob_one g n nd cs hn hl hc,
   fun g hp => sRules_sum_one g hp⟩

/-- Claim C1, witness: the amended normalisation statements evaluated on
a concrete graph with positive counts. -/
theorem claim_C1_witness :
    normalisedWitnessGraph.nodes[4]? = some ⟨Lexicon.ec [2, 3], [], []⟩ ∧
      0 < ecCountTotal normalisedWitnessGraph 4 [2, 3] ∧
      (lhsProbs (convert2PCFG normalisedWitnessGraph) (PCFGLhs.E 4)).sum = 1 ∧
      lhsProbs (convert2PCFG normalisedWitnessGraph) (PCFGLhs.P 5) = [1] ∧
      (lhsProbs (convert2PCFG normalisedWitnessGraph) PCFGLhs.S).sum = 1 :=
  ⟨by decide, by decide,
    claim_C1_amended.1 normalisedWitnessGraph 4 ⟨Lexicon.ec [2, 3], [], []⟩ [2, 3]
      (by decide) rfl (by decide),
    claim_C1_amended.2.1 normalisedWitnessGraph 5 ⟨Lexicon.sp [2, 3], [], []⟩ [2, 3]
      (by decide) rfl (by decide),
    claim_C1_amended.2.2 normalisedWitnessGraph (by decide)⟩

/-- The insertion scan places the new connection somewhere in the list,
leaving everything else in place. -/
theorem insertConnection_decomp (c : Nat × Nat) :
    ∀ (l : List (Nat × Nat)) (fg : Bool),
    ∃ p s, l = p ++ s ∧ insertConnection c l fg = p ++ c :: s := by
  intro l
  induction l with
  | nil => exact fun fg => ⟨[], [], rfl, rfl⟩
  | cons x xs ih =>
    intro fg
    by_cases h1 : c.1 = x.1
    · by_cases h2 : c.2 < x.2
      · exact ⟨[], x :: xs, rfl, by rw [insertConnection, if_pos h1, if_pos h2]; rfl⟩
      · obtain ⟨p, s, hls, heq⟩ := ih true
        exact ⟨x :: p, s, by rw [hls, List.cons_append],
          by rw [insertConnection, if_pos h1, if_neg h2, heq, List.cons_append]⟩
    · by_cases hf : fg = true
      · exact ⟨[], x :: xs, rfl, by rw [insertConnection, if_neg h1, if_pos hf]; rfl⟩
      · obtain ⟨p, s, hls, heq⟩ := ih fg
        exact ⟨x :: p, s, by rw [hls, List.cons_append],
          by rw [insertConnection, if_neg h1, if_neg hf, heq, List.cons_append]⟩

/-- Members of the insertion result come from the inserted element or
the original list. -/
theorem insertConnection_mem (c y : Nat × Nat) (l : List (Nat × Nat)) (fg : Bool)
    (h : y ∈ insertConnection c l fg) : y = c ∨ y ∈ l := by
  obtain ⟨p, s, hls, heq⟩ := insertConnection_decomp c l fg
  rw [heq] at h
  rw [hls]
  rcases List.mem_append.mp h with h2 | h2
  · exact Or.inr (List.mem_append_left s h2)
  · rcases List.mem_cons.mp h2 with h3 | h3
    · exact Or.inl h3
    · exact Or.inr (List.mem_append_right p h3)

/-- The scan walks past a prefix of foreign path indices without
touching it (found_group still false). -/
theorem insertConnection_skip (c : Nat × Nat) :
    ∀ (m rest : List (Nat × Nat)), (∀ y ∈ m, y.1 ≠ c.1) →
    insertConnection c (m ++ rest) false = m ++ insertConnection c rest false := by
  intro m
  induction m with
  | nil => intro rest _; rw [List.nil_append, List.nil_append]
  | cons x xs ih =>
    intro rest hm
    rw [List.cons_append, insertConnection,
      if_neg (fun hh => hm x (List.mem_cons_self x xs) hh.symm),
      if_neg (by simp), ih rest (fun y hy => hm y (List.mem_cons_of_mem x hy)),
      List.cons_append]

/-- With found_group already true and the remaining own-path block in
front, the scan inserts the connection inside or directly after that
block. -/
theorem insertConnection_block (c : Nat × Nat) :
    ∀ (blk rest : List (Nat × Nat)),
    (∀ y ∈ blk, y.1 = c.1) → (∀ y ∈ rest, y.1 ≠ c.1) →
    ∃ b1 b2, blk = b1 ++ b2 ∧
      insertConnection c (blk ++ rest) true = b1 ++ c :: (b2 ++ rest) := by
  intro blk
  induction blk with
  | nil =>
    intro rest _ hrest
    refine ⟨[], [], rfl, ?_⟩
    cases rest with
    | nil => rfl
    | cons r rs =>
      rw [List.nil_append, insertConnection,
        if_neg (fun hh => hrest r (List.mem_cons_self r rs) hh.symm), if_pos rfl]
      rfl
  | cons y ys ih =>
    intro rest hblk hrest
    by_cases h2 : c.2 < y.2
    · exact ⟨[], y :: ys, rfl, by
        rw [List.cons_append, insertConnection,
          if_pos (hblk y (List.mem_cons_self y ys)).symm, if_pos h2]
        rfl⟩
    · obtain ⟨b1, b2, hsplit, heq⟩ := ih rest
        (fun z hz => hblk z (List.mem_cons_of_mem y hz)) hrest
      exact ⟨y :: b1, b2, by rw [hsplit, List.cons_append], by
        rw [List.cons_append, insertConnection,
          if_pos (hblk y (List.mem_cons_self y ys)).symm, if_neg h2, heq, List.cons_append]⟩

/-- The insertion scan keeps the list grouped. -/
theorem insertConnection_grouped (c : Nat × Nat) :
    ∀ l, Grouped l → Grouped (insertConnection c l false) := by
  intro l hl
  induction hl with
  | nil =>
    have : insertConnection c [] false = c :: [] ++ [] := rfl
    rw [this]
    exact Grouped.block c [] [] (by simp) (by simp) Grouped.nil
  | block x blk rest hblk hrest hgrest ih =>
    by_cases h1 : c.1 = x.1
    · by_cases h2 : c.2 < x.2
      · rw [show insertConnection c (x :: blk ++ rest) false = c :: (x :: blk) ++ rest from by
          rw [List.cons_append, insertConnection, if_pos h1, if_pos h2, List.cons_append,
            List.cons_append]]
        refine Grouped.block c (x :: blk) rest ?_ (fun y hy => h1 ▸ hrest y hy) hgrest
        intro y hy
        rcases List.mem_cons.mp hy with rfl | hy2
        · exact h1.symm
        · exact (hblk y hy2).trans h1.symm
      · rw [show insertConnection c (x :: blk ++ rest) false
            = x :: insertConnection c (blk ++ rest) true from by
          rw [List.cons_append, insertConnection, if_pos h1, if_neg h2]]
        obtain ⟨b1, b2, hsplit, heq⟩ := insertConnection_block c blk rest
          (fun y hy => (hblk y hy).trans h1.symm) (fun y hy hh => hrest y hy (hh ▸ h1))
        rw [heq, show x :: (b1 ++ c :: (b2 ++ rest)) = x :: (b1 ++ c :: b2) ++ rest from by
          simp [List.append_assoc]]
        refine Grouped.block x (b1 ++ c :: b2) rest ?_ hrest hgrest
        intro y hy
        rcases List.mem_append.mp hy with hy2 | hy2
        · exact hblk y (hsplit ▸ List.mem_append_left b2 hy2)
        · rcases List.mem_cons.mp hy2 with rfl | hy3
          · exact h1
          · exact hblk y (hsplit ▸ List.mem_append_right b1 hy3)
    · rw [show insertConnection c (x :: blk ++ rest) false
          = x :: insertConnection c (blk ++ rest) false from by
        rw [List.cons_append, insertConnection, if_neg h1, if_neg (by simp)]]
      rw [insertConnection_skip c blk rest (fun y hy hh => h1 ((hblk y hy) ▸ hh).symm)]
      refine Grouped.block x blk (insertConnection c rest false) hblk ?_ ih
      intro y hy
      rcases insertConnection_mem c y rest false hy with rfl | hy2
      · exact h1
      · exact hrest y hy2

/-- sorted_connections is always grouped. -/
theorem sortConnections_grouped (conns : List (Nat × Nat)) :
    Grouped (sortConnections conns) := by
  unfold sortConnections
  have key : ∀ (l : List (Nat × Nat)) (acc : List (Nat × Nat)), Grouped acc →
      Grouped (l.foldl (fun a c => insertConnection c a false) acc) := by
    intro l
    induction l with
    | nil => exact fun acc h => h
    | cons x xs ih => exact fun acc h => ih _ (insertConnection_grouped x acc h)
  exact key conns [] Grouped.nil

theorem offsetsIn_cons_eq (p : Nat) (c : Nat × Nat) (l : List (Nat × Nat)) (h : c.1 = p) :
    offsetsIn p (c :: l) = c.2 :: offsetsIn p l := by
  unfold offsetsIn
  rw [List.filterMap_cons]
  simp [h]

theorem offsetsIn_cons_ne (p : Nat) (c : Nat × Nat) (l : List (Nat × Nat)) (h : c.1 ≠ p) :
    offsetsIn p (c :: l) = offsetsIn p l := by
  unfold offsetsIn
  rw [List.filterMap_cons]
  simp [h]

theorem offsetsIn_append (p : Nat) (a b : List (Nat × Nat)) :
    offsetsIn p (a ++ b) = offsetsIn p a ++ offsetsIn p b := by
  unfold offsetsIn
  exact List.filterMap_append a b _

theorem offsetsIn_eq_nil (p : Nat) (l : List (Nat × Nat)) (h : ∀ y ∈ l, y.1 ≠ p) :
    offsetsIn p l = [] := by
  induction l with
  | nil => rfl
  | cons x xs ih =>
    rw [offsetsIn_cons_ne p x xs (h x (List.mem_cons_self x xs))]
    exact ih (fun y hy => h y (List.mem_cons_of_mem x hy))

theorem offsetsIn_all (p : Nat) (l : List (Nat × Nat)) (h : ∀ y ∈ l, y.1 = p) :
    offsetsIn p l = l.map Prod.snd := by
  induction l with
  | nil => rfl
  | cons x xs ih =>
    rw [offsetsIn_cons_eq p x xs (h x (List.mem_cons_self x xs)), List.map_cons,
      ih (fun y hy => h y (List.mem_cons_of_mem x hy))]

theorem dropOverlapsGo_subset (k : Nat) :
    ∀ (l : List (Nat × Nat)) (last y : Nat × Nat), y ∈ dropOverlapsGo k last l → y ∈ l := by
  intro l
  induction l with
  | nil => intro last y h; exact absurd h (List.not_mem_nil y)
  | cons c cs ih =>
    intro last y h
    rw [dropOverlapsGo] at h
    by_cases hc : c.1 = last.1 ∧ c.2 ≤ last.2 + k - 1
    · rw [if_pos hc] at h
      exact List.mem_cons_of_mem c (ih last y h)
    · rw [if_neg hc] at h
      rcases List.mem_cons.mp h with rfl | h2
      · exact List.mem_cons_self y cs
      · exact List.mem_cons_of_mem c (ih c y h2)

theorem dropOverlapsAll_subset (k : Nat) (l : List (Nat × Nat)) (y : Nat × Nat)
    (h : y ∈ dropOverlapsAll k l) : y ∈ l := by
  cases l with
  | nil => exact absurd h (List.not_mem_nil y)
  | cons c cs =>
    rw [dropOverlapsAll] at h
    rcases List.mem_cons.mp h with rfl | h2
    · exact List.mem_cons_self y cs
    · exact List.mem_cons_of_mem c (dropOverlapsGo_subset k cs c y h2)

/-- Scanning an own-path block followed by foreign connections keeps a
subchain of the block whose offsets keep a gap of at least k, then
restarts on the foreign part. -/
theorem dropGo_block (k : Nat) (hk : 1 ≤ k) :
    ∀ (blk : List (Nat × Nat)) (last : Nat × Nat) (rest : List (Nat × Nat)),
    (∀ y ∈ blk, y.1 = last.1) → (∀ y ∈ rest, y.1 ≠ last.1) →
    ∃ kept, dropOverlapsGo k last (blk ++ rest) = kept ++ dropOverlapsAll k rest ∧
      (∀ y ∈ kept, y.1 = last.1) ∧
      List.Chain (fun a b => a + k ≤ b) last.2 (kept.map Prod.snd) := by
  intro blk
  induction blk with
  | nil =>
    intro last rest _ hrest
    refine ⟨[], ?_, by simp, List.Chain.nil⟩
    rw [List.nil_append]
    cases rest with
    | nil => rfl
    | cons r rs =>
      rw [dropOverlapsGo, if_neg (fun hh => hrest r (List.mem_cons_self r rs) hh.1)]
      rfl
  | cons c blk2 ih =>
    intro last rest hblk hrest
    have hc1 : c.1 = last.1 := hblk c (List.mem_cons_self c blk2)
    rw [List.cons_append, dropOverlapsGo]
    by_cases hc : c.1 = last.1 ∧ c.2 ≤ last.2 + k - 1
    · rw [if_pos hc]
      exact ih last rest (fun y hy => hblk y (List.mem_cons_of_mem c hy)) hrest
    · rw [if_neg hc]
      have hgap : last.2 + k ≤ c.2 := by
        have := fun h2 => hc ⟨hc1, h2⟩
        omega
      obtain ⟨kept, heq, hkeptpath, hchain⟩ := ih c rest
        (fun y hy => (hblk y (List.mem_cons_of_mem c hy)).trans hc1.symm)
        (fun y hy hh => hrest y hy (hh ▸ hc1.symm).symm)
      refine ⟨c :: kept, by rw [heq, List.cons_append], ?_, ?_⟩
      · intro y hy
        rcases List.mem_cons.mp hy with rfl | hy2
        · exact hc1
        · exact (hkeptpath y hy2).trans hc1
      · rw [List.map_cons]
        exact List.Chain.cons hgap hchain

/-- On a grouped connection list the overlap-dropping pass leaves, for
every path, offsets that pairwise keep a gap of at least k. -/
theorem dropAll_grouped_pairwise (k : Nat) (hk : 1 ≤ k) :
    ∀ (l : List (Nat × Nat)), Grouped l → ∀ p,
    List.Pairwise (fun a b => a + k ≤ b) (offsetsIn p (dropOverlapsAll k l)) := by
  intro l hl
  induction hl with
  | nil =>
    intro p
    exact List.Pairwise.nil
  | block x blk rest hblk hrest hgrest ih =>
    intro p
    rw [show dropOverlapsAll k (x :: blk ++ rest)
        = x :: dropOverlapsGo k x (blk ++ rest) from rfl]
    obtain ⟨kept, heq, hkeptpath, hchain⟩ := dropGo_block k hk blk x rest hblk hrest
    rw [heq]
    by_cases hp : x.1 = p
    · subst hp
      rw [offsetsIn_cons_eq _ x _ rfl, offsetsIn_append,
        offsetsIn_all _ kept hkeptpath,
        offsetsIn_eq_nil _ (dropOverlapsAll k rest)
          (fun y hy => hrest y (dropOverlapsAll_subset k rest y hy)),
        List.append_nil]
      haveI : IsTrans Nat (fun a b => a + k ≤ b) := ⟨fun a b c h1 h2 => by omega⟩
      exact List.chain_iff_pairwise.mp hchain
    · rw [offsetsIn_cons_ne _ x _ hp, offsetsIn_append,
        offsetsIn_eq_nil _ kept (fun y hy hh => hp (by rw [← hkeptpath y hy]; exact hh)),
        List.nil_append]
      exact ih p

/-- SearchPath::rewire on an in-bounds inclusive range [q, q+k-1] is the
take/singleton/drop decomposition. -/
theorem pathRewire_take_drop (path : List Nat) (q k n : Nat) (hk : 1 ≤ k)
    (hq : q + k - 1 < path.length) :
    pathRewire path q (q + k - 1) n = path.take q ++ [n] ++ path.drop (q + k) := by
  unfold pathRewire
  have hfin : q + k - 1 + 1 = q + k := by omega
  rw [hfin]
  have htq : (path.take q).length = q := by
    rw [List.length_take]
    omega
  simp only [List.take_left' htq, List.drop_left' htq]

/-- Claim C5: the rewiring operator (i) accepts, within each single
path, only connections that keep a gap of at least the pattern length —
the offsets of the accepted occurrences of one path are pairwise
non-overlapping; (ii) applies exactly the surviving rewrites by folding
over valid_connections in reverse (the C++ loop runs the indices
downwards, i.e. largest offsets of a path first); and (iii) each
in-bounds rewrite replaces the inclusive range [q, q+k-1] of that path
with the single new Pattern node id. -/
theorem claim_C5_rewire : ∀ (conns : List (Nat × Nat)) (cs : List Nat) (g : RDSGraph),
    1 ≤ cs.length → conns ≠ [] →
    (∀ p, List.Pairwise (fun a b => a + cs.length ≤ b)
        (offsetsIn p (validConnections cs.length conns))) ∧
    rewireSP g conns cs =
      updateAllConnections
        { g with
          nodes := g.nodes ++ [⟨Lexicon.sp cs, [], []⟩],
          paths := ((validConnections cs.length conns).reverse.foldl
            (applyOneRewire cs g.nodes.length) (g.paths, g.trees)).1,
          trees := ((validConnections cs.length conns).reverse.foldl
            (applyOneRewire cs g.nodes.length) (g.paths, g.trees)).2 } ∧
    (∀ (st : List (List Nat) × List PTree) (c : Nat × Nat),
        c.1 < st.1.length → c.2 + cs.length - 1 < (st.1.getD c.1 []).length →
        (applyOneRewire cs g.nodes.length st c).1
          = st.1.set c.1 ((st.1.getD c.1 []).take c.2 ++ [g.nodes.length]
              ++ (st.1.getD c.1 []).drop (c.2 + cs.length))) := by
  intro conns cs g hk hne
  refine ⟨?_, ?_, ?_⟩
  · intro p
    exact dropAll_grouped_pairwise cs.length hk (sortConnections conns)
      (sortConnections_grouped conns) p
  · unfold rewireSP
    rw [if_neg (by simp [List.isEmpty_iff, hne])]
    have hlen : (g.nodes ++ [(⟨Lexicon.sp cs, [], []⟩ : RDSNode)]).length - 1
        = g.nodes.length := by simp
    rw [hlen]
  · intro st c h1 h2
    unfold applyOneRewire
    rw [if_pos h1, if_pos h2]
    exact congrArg (st.1.set c.1) (pathRewire_take_drop (st.1.getD c.1 []) c.2 cs.length
      g.nodes.length hk h2)

/-- Claim C5, witness: the rewiring statements evaluated at pattern
[2, 3] (length 2) and connections [(0,1), (0,2), (0,4)] — (0,2) overlaps
the accepted (0,1) and is discarded, (0,4) is kept. -/
theorem claim_C5_witness :
    1 ≤ ([2, 3] : List Nat).length ∧
      ([(0, 1), (0, 2), (0, 4)] : List (Nat × Nat)) ≠ [] ∧
      List.Pairwise (fun a b => a + ([2, 3] : List Nat).length ≤ b)
        (offsetsIn 0 (validConnections ([2, 3] : List Nat).length [(0, 1), (0, 2), (0, 4)])) ∧
      ((0 : Nat), (1 : Nat)).1 < ([[0, 2, 3, 2, 3, 1]] : List (List Nat)).length ∧
      (applyOneRewire [2, 3] normalisedWitnessGraph.nodes.length
          ([[0, 2, 3, 2, 3, 1]], ([] : List PTree)) (0, 1)).1
        = [[0, 2, 3, 2, 3, 1]].set 0 (([0, 2, 3, 2, 3, 1].take 1 ++ [normalisedWitnessGraph.nodes.length]
            ++ [0, 2, 3, 2, 3, 1].drop 3 : List Nat)) :=
  ⟨by decide, by decide,
    (claim_C5_rewire [(0, 1), (0, 2), (0, 4)] [2, 3] normalisedWitnessGraph
      (by decide) (by decide)).1 0,
    by decide,
    (claim_C5_rewire [(0, 1), (0, 2), (0, 4)] [2, 3] normalisedWitnessGraph
      (by decide) (by decide)).2.2 ([[0, 2, 3, 2, 3, 1]], []) (0, 1) (by decide) (by decide)⟩
